import Mathlib

/-!
Verification of the `gitstate` package (`src/gitstate/repo_utils.py`) against its
specification.  The embedding below is a shallow model of the three components:

* the repository locator `_get_git_repo` (repo_utils.py lines 12-68),
* the module scanner `list_imported_repos` (lines 71-112),
* the state reporter `list_repo_state` / `repo_state_string` (lines 115-166).

Filesystem paths are modelled as lists of components below the filesystem root
(so `/a/b` is `["a", "b"]` and the root `/` is `[]`); `os.path.abspath(os.path.join(p, '..'))`
is `List.dropLast`, which fixes the root, exactly as `/` is its own parent.
The environment an invocation runs in (which directories are repository roots,
which contain a `.gitrepo` marker file, and the entries of `sys.path`) is a
record `FS`; the external gitpython query capability is modelled by the
`Repo` record.  Machine output (the `print` on line 46 of repo_utils.py) is
returned alongside the result as a list of printed lines.
-/

/-- A filesystem path: the component list below the root directory. -/
abbrev FPath := List String

/-- The environment of one call: which directories `git.Repo` accepts as a
repository root, which directories contain a `.gitrepo` subrepo marker file,
and the snapshot `_pypath` of `sys.path` (empty entries already resolved to
the working directory, repo_utils.py line 9). -/
structure FS where
  isRepoRoot : FPath → Bool
  hasMarker : FPath → Bool
  pypath : List FPath

/-- Result of the locator: a repository handle (identified by its root
directory), a silent not-found (`None` in the source), or the RuntimeError
raised when the 1000-step safety bound is exhausted. -/
inductive LocateResult where
  | found (root : FPath)
  | notFound
  | boundExceeded
deriving DecidableEq

/-- Python `sep.join(l)`. -/
def joinSep (sep : String) : List String → String
  | [] => ""
  | [x] => x
  | x :: y :: rest => x ++ sep ++ joinSep sep (y :: rest)

/-- Printed form of a path, as `os.path` renders absolute paths. -/
def renderPath (p : FPath) : String :=
  "/" ++ joinSep "/" p

/-- Python `s.lower()`, characterwise. -/
def strLower (s : String) : String :=
  ⟨s.data.map Char.toLower⟩

/-- Test used on line 45 of repo_utils.py: `'git' in path.lower()`. -/
def hasSubstr (pat : List Char) : List Char → Bool
  | [] => pat.isEmpty
  | c :: rest => pat.isPrefixOf (c :: rest) || hasSubstr pat rest

/-- Whether the debug print on line 46 fires for this directory. -/
def containsGit (s : String) : Bool :=
  hasSubstr "git".data (strLower s).data

/-- The lines printed at the top of one loop iteration (repo_utils.py 45-46). -/
def printedOf (p : FPath) : List String :=
  if containsGit (renderPath p) then [renderPath p] else []

/-- One `while safety > 0` loop of `_get_git_repo` (repo_utils.py 41-66), with
the remaining `safety` budget as fuel.  Per iteration: the debug print, then
the sticky `break_after_loop` flag and the per-iteration `was_in_subrepo`
flag, then the `git.Repo(path)` attempt; on failure `move_up` (`dropLast`)
runs before the `break_after_loop and not was_in_subrepo` exit check. -/
def locateLoop (fs : FS) : Nat → FPath → Bool → LocateResult × List String
  | 0, _, _ => (.boundExceeded, [])
  | n + 1, p, b =>
    let brk := b || decide (p ∈ fs.pypath)
    let sub := decide (p ∈ fs.pypath) && fs.hasMarker p
    if fs.isRepoRoot p then (.found p, printedOf p)
    else if brk && !sub then (.notFound, printedOf p)
    else
      let nxt := locateLoop fs n p.dropLast brk
      (nxt.1, printedOf p ++ nxt.2)

/-- `_get_git_repo(path)` (repo_utils.py 12-68): run the walk with
`safety = 1000` and `break_after_loop = False` on the absolutised path. -/
def _get_git_repo (fs : FS) (path : FPath) : LocateResult × List String :=
  locateLoop fs 1000 path false

/-! ### The gitpython query capability and the state reporter -/

/-- What the external capability reports about the HEAD commit: its full hash,
the `a_path`s of `head.commit.diff(None)` (the modified files), and the text
of `repo.git.diff(head.commit.tree)`. -/
structure CommitInfo where
  hexsha : String
  modifiedAPaths : List String
  diffText : String
deriving DecidableEq

/-- A located repository as gitpython presents it: `repo.head.commit` is
absent when the repository has no commits (gitpython raises there), plus the
active branch name and the untracked files listing. -/
structure Repo where
  headCommit : Option CommitInfo
  activeBranch : String
  untrackedFiles : List String
deriving DecidableEq

/-- The failure `list_repo_state` can surface: accessing `repo.head.commit`
on a repository without commits raises. -/
inductive StateError where
  | noHeadCommit
deriving DecidableEq

/-- The dictionary built by `list_repo_state` (repo_utils.py 125-129). -/
structure RepoState where
  HEAD : String
  branch : String
  modified_files : List String
  untracked_files : List String
  diff_vs_head : String
deriving DecidableEq

/-- `list_repo_state(repo)` (repo_utils.py 115-129).  The first expression of
the dict literal is `repo.head.commit.hexsha`, so with no HEAD commit the
exception propagates before any field of the record is produced. -/
def list_repo_state (repo : Repo) : Except StateError RepoState :=
  match repo.headCommit with
  | none => .error .noHeadCommit
  | some c =>
    .ok { HEAD := c.hexsha
          branch := repo.activeBranch
          modified_files := c.modifiedAPaths
          untracked_files := repo.untrackedFiles
          diff_vs_head := c.diffText }

/-- Python `s[:7]`: the first seven characters. -/
def strTake (s : String) (n : Nat) : String :=
  ⟨s.data.take n⟩

/-- `'HEAD {sha} ({branch})'` with the 7-character abbreviated hash
(repo_utils.py line 146). -/
def statusMsg (s : RepoState) : String :=
  "HEAD " ++ strTake s.HEAD 7 ++ " (" ++ s.branch ++ ")"

/-- `'{} files modifed'.format(len(modified_files))` (line 151, spelling as in
the source). -/
def modMsg (s : RepoState) : String :=
  toString s.modified_files.length ++ " files modifed"

/-- `'{} untracked files'.format(len(untracked_files))` (line 153). -/
def untrMsg (s : RepoState) : String :=
  toString s.untracked_files.length ++ " untracked files"

/-- The `listsep` constant of repo_utils.py line 158. -/
def listsep : String := "\n    * "

/-- The multi-line body built on lines 159-161 for detail levels above 1. -/
def bodyMsg (s : RepoState) : String :=
  statusMsg s ++ ":\n  " ++ modMsg s ++ (listsep ++ joinSep listsep s.modified_files)
    ++ "\n  " ++ untrMsg s ++ (listsep ++ joinSep listsep s.untracked_files)

/-- The formatting logic of `repo_state_string` applied to an already
computed state dictionary (repo_utils.py 146-166).  `detail` is a Python
int, hence `Int`. -/
def format_state (s : RepoState) (detail : Int) : String :=
  if detail = 0 then statusMsg s
  else if detail = 1 then statusMsg s ++ " - " ++ modMsg s ++ ", " ++ untrMsg s
  else if detail > 2 then
    bodyMsg s ++ "\n\n  Difference versus HEAD:\n\n" ++ s.diff_vs_head ++ "\n\n"
  else bodyMsg s

/-- `repo_state_string(repo, detail)` (repo_utils.py 132-166): compute
`list_repo_state(repo)` (whose failure propagates) and format it. -/
def repo_state_string (repo : Repo) (detail : Int) : Except StateError String :=
  (list_repo_state repo).map (fun st => format_state st detail)

/-! ### The module scanner -/

/-- A Python dict with insertion order: an association list where updating an
existing key rewrites the value in place and a new key is appended. -/
abbrev PyDict (α β : Type) := List (α × β)

/-- `d[k] = v` on a Python dict. -/
def dictInsert {α β : Type} [DecidableEq α] (d : PyDict α β) (k : α) (v : β) : PyDict α β :=
  match d with
  | [] => [(k, v)]
  | kv :: rest => if kv.1 = k then (k, v) :: rest else kv :: dictInsert rest k v

/-- `d[k]` / `k in d.keys()` on a Python dict. -/
def dictGet? {α β : Type} [DecidableEq α] (d : PyDict α β) (k : α) : Option β :=
  match d with
  | [] => none
  | kv :: rest => if kv.1 = k then some kv.2 else dictGet? rest k

/-- The `{'name': ..., 'repo': ...}` value stored in the intermediate dict of
`list_imported_repos` (repo_utils.py line 105); the repository handle is
identified by its root. -/
structure RepoEntry where
  name : String
  repo : FPath
deriving DecidableEq

/-- The loop body of `list_imported_repos` (repo_utils.py 88-105) for one
`sys.modules` item, acting on the intermediate dict keyed by the repository
location.  A module without `__file__` raises AttributeError and is skipped;
a not-found locate is skipped; otherwise either the stored name is shortened
(strictly shorter names only, line 103) or a fresh entry is appended. -/
def stepRepos (fs : FS) (repos : PyDict FPath RepoEntry) (m : String × Option FPath) :
    PyDict FPath RepoEntry :=
  match m.2 with
  | none => repos
  | some f =>
    match (_get_git_repo fs f).1 with
    | .found root =>
      match dictGet? repos root with
      | some prev =>
        if prev.name.length > m.1.length then dictInsert repos root ⟨m.1, prev.repo⟩
        else repos
      | none => dictInsert repos root ⟨m.1, root⟩
    | _ => repos

/-- The `for name, mod in sys.modules.items()` loop of `list_imported_repos`.
A `RuntimeError` escaping `_get_git_repo` (bound exhausted) propagates out of
the whole scan, which `.error ()` records. -/
def scanAux (fs : FS) : List (String × Option FPath) → PyDict FPath RepoEntry →
    Except Unit (PyDict FPath RepoEntry)
  | [], repos => .ok repos
  | m :: rest, repos =>
    match m.2 with
    | none => scanAux fs rest repos
    | some f =>
      match (_get_git_repo fs f).1 with
      | .boundExceeded => .error ()
      | _ => scanAux fs rest (stepRepos fs repos m)

/-- The final re-keying comprehension of repo_utils.py line 112:
`{val['name']: val['repo'] for val in repos.values()}`. -/
def rekey (repos : PyDict FPath RepoEntry) : PyDict String FPath :=
  repos.foldl (fun acc kv => dictInsert acc kv.2.name kv.2.repo) []

/-- `list_imported_repos()` (repo_utils.py 71-112), on a snapshot of
`sys.modules` given as (name, optional `__file__`) pairs. -/
def list_imported_repos (fs : FS) (modules : List (String × Option FPath)) :
    Except Unit (PyDict String FPath) :=
  (scanAux fs modules []).map rekey

/-! ### Specification-side helper notions used to state the claims -/

/-- The module names that resolve (through the locator) to the repository
rooted at `r`, in scan order. -/
def namesResolvingTo (fs : FS) (modules : List (String × Option FPath)) (r : FPath) :
    List String :=
  modules.filterMap fun m =>
    match m.2 with
    | some f => if (_get_git_repo fs f).1 = LocateResult.found r then some m.1 else none
    | none => none

/-- The first name of minimal length in a list: the "shortest, first-seen on
ties" selection rule of the deduplication step. -/
def shortestFirst : List String → Option String
  | [] => none
  | x :: xs => some (xs.foldl (fun best nm => if best.length > nm.length then nm else best) x)

/-- Strict string prefixhood, stated on the character lists. -/
def strictPrefixStr (a b : String) : Prop :=
  a.data <+: b.data ∧ a ≠ b

instance (a b : String) : Decidable (strictPrefixStr a b) :=
  inferInstanceAs (Decidable (a.data <+: b.data ∧ a ≠ b))

/-! ### Helper lemmas -/

theorem str_data_append (a b : String) : (a ++ b).data = a.data ++ b.data := rfl

theorem strictPrefixStr_of_data (a b t : String) (h : b.data = a.data ++ t.data)
    (ht : t.data ≠ []) : strictPrefixStr a b := by
  constructor
  · rw [h]
    exact List.prefix_append _ _
  · intro he
    apply ht
    rw [he.symm] at h
    have hl := congrArg List.length h
    rw [List.length_append] at hl
    have : t.data.length = 0 := by omega
    exact List.eq_nil_of_length_eq_zero this

theorem append_ne_nil_left (l1 l2 : List Char) (h : l1 ≠ []) : l1 ++ l2 ≠ [] := by
  intro hc
  exact h (List.append_eq_nil.mp hc).1

deriving instance DecidableEq for Except

/-! ### Claim C1: detail-level prefix chain -/

/-- C1 counterexample: the claim fails between detail 1 and detail 2.  For a
concrete repository state, `repo_state_string`'s detail-1 line
`"HEAD ... - 2 files modifed, 0 untracked files"` is not a prefix of the
detail-2 output, which restarts after the `"HEAD ... (branch)"` part with
`":"` and a multi-line listing instead of `" - "`. -/
theorem c1_counterexample :
    ¬ strictPrefixStr
      (format_state ⟨"abcdef1234abcdef1234abcdef1234abcdef1234", "main", ["fa", "fb"], [], ""⟩ 1)
      (format_state ⟨"abcdef1234abcdef1234abcdef1234abcdef1234", "main", ["fa", "fb"], [], ""⟩ 2) := by
  decide

/-- C1 (amended): for a fixed repository state, the detail-0 string is a
strict prefix of the detail-1 string, and the detail-0 string is a strict
prefix of the detail-2 string, which is a strict prefix of the detail-3
string; the detail-1 string however is not extended by detail 2. -/
theorem c1_amended_chain (st : RepoState) :
    strictPrefixStr (format_state st 0) (format_state st 1) ∧
    strictPrefixStr (format_state st 0) (format_state st 2) ∧
    strictPrefixStr (format_state st 2) (format_state st 3) := by
  refine ⟨?_, ?_, ?_⟩
  · apply strictPrefixStr_of_data _ _ (" - " ++ modMsg st ++ ", " ++ untrMsg st)
    · simp [str_data_append, List.append_assoc, format_state]
    · simp only [str_data_append, List.append_assoc]
      exact append_ne_nil_left _ _ (by decide)
  · apply strictPrefixStr_of_data _ _
      (":\n  " ++ modMsg st ++ (listsep ++ joinSep listsep st.modified_files)
        ++ "\n  " ++ untrMsg st ++ (listsep ++ joinSep listsep st.untracked_files))
    · simp [str_data_append, List.append_assoc, format_state, bodyMsg]
    · simp only [str_data_append, List.append_assoc]
      exact append_ne_nil_left _ _ (by decide)
  · apply strictPrefixStr_of_data _ _
      ("\n\n  Difference versus HEAD:\n\n" ++ st.diff_vs_head ++ "\n\n")
    · simp [str_data_append, List.append_assoc, format_state]
    · simp only [str_data_append, List.append_assoc]
      exact append_ne_nil_left _ _ (by decide)

/-! ### Claim C2: the detail-1 scenario string -/

/-- A repository with HEAD `abcdef1234...` on branch `main`, two modified
files and no untracked files. -/
def repo2ex : Repo :=
  ⟨some ⟨"abcdef1234abcdef1234abcdef1234abcdef1234", ["model_a.py", "model_b.py"], ""⟩,
   "main", []⟩

/-- C2: on the scenario repository, the code's detail-1 output is
`"HEAD abcdef1 (main) - 2 files modifed, 0 untracked files"` — the word
`modified` is misspelled `modifed` in repo_utils.py line 151 — so the output
differs from the string the claim specifies. -/
theorem c2_code_output :
    repo_state_string repo2ex 1 = .ok "HEAD abcdef1 (main) - 2 files modifed, 0 untracked files" ∧
    repo_state_string repo2ex 1 ≠ .ok "HEAD abcdef1 (main) - 2 files modified, 0 untracked files" := by
  decide

/-! ### Claim C6: boundary directories and the subrepo marker -/

/-- C6: when the walk reaches a directory `d` on the search-boundary list
that is not itself a repository root, then: with the `.gitrepo` marker
present the iteration continues past `d` to its parent (same result as
restarting one level up with the stop flag armed), and with the marker
absent the walk stops at `d` and returns not-found. -/
theorem c6_boundary_marker (fs : FS) (d : FPath) (b : Bool) (n : Nat)
    (hb : d ∈ fs.pypath) (hnr : fs.isRepoRoot d = false) :
    (fs.hasMarker d = true →
      (locateLoop fs (n + 1) d b).1 = (locateLoop fs n d.dropLast true).1) ∧
    (fs.hasMarker d = false → (locateLoop fs (n + 1) d b).1 = .notFound) := by
  constructor
  · intro hm
    simp [locateLoop, hnr, hm, hb]
  · intro hm
    simp [locateLoop, hnr, hm, hb]

/-- Boundary directory `/proj/sub` carrying the subrepo marker, inside the
repository `/proj`. -/
def fs6w : FS := ⟨fun p => p == ["proj"], fun p => p == ["proj", "sub"], [["proj", "sub"]]⟩

/-- The same layout with the marker file removed. -/
def fs6w2 : FS := ⟨fun p => p == ["proj"], fun _ => false, [["proj", "sub"]]⟩

/-- C6 witness: with the marker the walk continues above `/proj/sub` (and in
fact finds `/proj`); without it the walk stops with not-found. -/
theorem c6_boundary_marker_witness :
    ((locateLoop fs6w 3 ["proj", "sub"] false).1 = (locateLoop fs6w 2 ["proj"] true).1) ∧
    ((locateLoop fs6w2 3 ["proj", "sub"] false).1 = .notFound) :=
  ⟨(c6_boundary_marker fs6w ["proj", "sub"] false 2 (by decide) (by decide)).1 (by decide),
   (c6_boundary_marker fs6w2 ["proj", "sub"] false 2 (by decide) (by decide)).2 (by decide)⟩

/-! ### Claim C7: repository roots win over boundary stops -/

/-- C7: whenever the current walk directory is a valid repository root, the
iteration returns that repository immediately, whatever the stop flag and
the boundary list say; in particular a path that is itself a repository root
is returned by `_get_git_repo` even if it is also a search-boundary entry. -/
theorem c7_root_priority (fs : FS) (p : FPath) (b : Bool) (n : Nat)
    (h : fs.isRepoRoot p = true) :
    (locateLoop fs (n + 1) p b).1 = .found p ∧ (_get_git_repo fs p).1 = .found p := by
  have key : ∀ (m : Nat) (c : Bool), (locateLoop fs (m + 1) p c).1 = .found p := by
    intro m c
    simp [locateLoop, h]
  exact ⟨key n b, key 999 false⟩

/-- A directory that is both a repository root and a `sys.path` entry (a
develop-mode install). -/
def fs7w : FS := ⟨fun p => p == ["g"], fun _ => false, [["g"]]⟩

/-- C7 witness: `/g` is simultaneously a repository root and a search
boundary, and the locator returns it. -/
theorem c7_root_priority_witness :
    (locateLoop fs7w 1 ["g"] false).1 = .found ["g"] ∧ (_get_git_repo fs7w ["g"]).1 = .found ["g"] :=
  c7_root_priority fs7w ["g"] false 0 (by decide)

/-! ### Claim C8: repositories without a HEAD commit -/

/-- C8: on a repository with no commits, `list_repo_state` fails with the
no-HEAD-commit error; no record with any subset of the fields is produced
and the error is passed to the caller. -/
theorem c8_no_head_error (repo : Repo) (h : repo.headCommit = none) :
    list_repo_state repo = .error .noHeadCommit := by
  simp [list_repo_state, h]

/-- C8 witness: a freshly initialised repository on `main` with no commits. -/
theorem c8_no_head_error_witness :
    list_repo_state ⟨none, "main", []⟩ = .error .noHeadCommit :=
  c8_no_head_error ⟨none, "main", []⟩ rfl

/-! ### Claim C10: the debug print on the walk -/

/-- A `sys.path` layout under which locating a file inside `/env/mygit`
walks through directories whose names contain `git`. -/
def fs10c : FS := ⟨fun _ => false, fun _ => false, [["env"]]⟩

/-- C10: the locator is not output-free.  Any loop iteration whose current
directory renders to a lowercased path containing `git` emits that path as
the next line of standard output, and on a concrete input the whole
`_get_git_repo` call produces a nonempty stdout transcript. -/
theorem c10_debug_print :
    (∀ (fs : FS) (p : FPath) (b : Bool) (n : Nat), containsGit (renderPath p) = true →
      (locateLoop fs (n + 1) p b).2.head? = some (renderPath p)) ∧
    (_get_git_repo fs10c ["env", "mygit", "mod.py"]).2 ≠ [] := by
  constructor
  · intro fs p b n h
    simp only [locateLoop, printedOf, h, if_true]
    split
    · rfl
    · split
      · rfl
      · simp
  · decide

/-- C10 witness: the first printed line at a directory named `/mygit` is the
directory itself. -/
theorem c10_debug_print_witness :
    (locateLoop fs10c 1 ["mygit"] false).2.head? = some (renderPath ["mygit"]) :=
  c10_debug_print.1 fs10c ["mygit"] false 0 (by decide)

/-! ### Walk-chain helper lemmas -/

theorem prefix_dropLast_of_ne {α : Type} {l₁ l₂ : List α} (h : l₁ <+: l₂) (hne : l₁ ≠ l₂) :
    l₁ <+: l₂.dropLast := by
  obtain ⟨t, rfl⟩ := h
  have ht : t ≠ [] := by rintro rfl; simp at hne
  rw [List.dropLast_append_of_ne_nil _ ht]
  exact List.prefix_append _ _

theorem length_lt_of_prefix_ne {α : Type} {l₁ l₂ : List α} (h : l₁ <+: l₂) (hne : l₁ ≠ l₂) :
    l₁.length < l₂.length := by
  rcases Nat.lt_or_ge l₁.length l₂.length with hlt | hge
  · exact hlt
  · exact absurd (h.eq_of_length (Nat.le_antisymm h.length_le hge)) hne

theorem mem_inits_dropLast {α : Type} {s l : List α} (h : s ∈ l.dropLast.inits) : s ∈ l.inits := by
  rw [List.mem_inits] at h ⊢
  exact h.trans (List.dropLast_prefix l)

/-- With no repository root anywhere on the walk and a boundary directory `q`
(without a subrepo marker) among the current directory's ancestors, the loop
returns not-found before the fuel runs out. -/
theorem locateLoop_notFound_of_boundary (fs : FS) (q : FPath)
    (hbnd : q ∈ fs.pypath) (hnm : fs.hasMarker q = false) :
    ∀ (n : Nat) (p : FPath) (b : Bool), (∀ s ∈ p.inits, fs.isRepoRoot s = false) →
      q <+: p → p.length - q.length < n → (locateLoop fs n p b).1 = .notFound := by
  intro n
  induction n with
  | zero =>
    intro p b _ _ hlen
    omega
  | succ k ih =>
    intro p b hnr hq hlen
    have hpr : fs.isRepoRoot p = false := hnr p (by rw [List.mem_inits])
    by_cases hpq : p = q
    · subst hpq
      simp [locateLoop, hpr, hbnd, hnm]
    · have hne : q ≠ p := fun h => hpq h.symm
      have hq' : q <+: p.dropLast := prefix_dropLast_of_ne hq hne
      have hql : q.length < p.length := length_lt_of_prefix_ne hq hne
      by_cases hc : ((b || decide (p ∈ fs.pypath)) && !(decide (p ∈ fs.pypath) && fs.hasMarker p)) = true
      · simp only [locateLoop]
        rw [if_neg (by simp [hpr]), if_pos hc]
      · simp only [locateLoop]
        rw [if_neg (by simp [hpr]), if_neg hc]
        exact ih p.dropLast _ (fun s hs => hnr s (mem_inits_dropLast hs)) hq'
          (by simp [List.length_dropLast]; omega)

/-- With no repository root anywhere and an empty search-boundary list, the
loop consumes all its fuel and ends in the bound-exceeded error. -/
theorem locateLoop_boundExceeded_of_empty (fs : FS) (hpp : fs.pypath = [])
    (hnr : ∀ p, fs.isRepoRoot p = false) :
    ∀ (n : Nat) (p : FPath), (locateLoop fs n p false).1 = .boundExceeded := by
  intro n
  induction n with
  | zero => intro p; rfl
  | succ k ih =>
    intro p
    have hb : decide (p ∈ fs.pypath) = false := by simp [hpp]
    simp only [locateLoop]
    rw [if_neg (by simp [hnr p]), if_neg (by simp [hb])]
    simp only [hb, Bool.or_false]
    exact ih p.dropLast

/-! ### Claim C3: paths outside any repository -/

/-- A filesystem with no repository anywhere and no `sys.path` entry on the
walk (e.g. the located file lives on a different partition than every
`sys.path` directory). -/
def fs3c : FS := ⟨fun _ => false, fun _ => false, []⟩

/-- C3 counterexample: for `/somedir`, no ancestor is a repository root, yet
`_get_git_repo` does not return not-found — the walk reaches the filesystem
root, spins there until the 1000-step safety budget is gone and raises the
bound-exceeded RuntimeError. -/
theorem c3_counterexample :
    ((["somedir"] : FPath).inits.all (fun s => !fs3c.isRepoRoot s) = true) ∧
    (_get_git_repo fs3c ["somedir"]).1 = .boundExceeded ∧
    (_get_git_repo fs3c ["somedir"]).1 ≠ .notFound := by
  have hb : (_get_git_repo fs3c ["somedir"]).1 = .boundExceeded :=
    locateLoop_boundExceeded_of_empty fs3c rfl (fun _ => rfl) 1000 ["somedir"]
  refine ⟨by decide, hb, ?_⟩
  rw [hb]
  decide

/-- C3 (amended): for every path outside any repository that has an ancestor
directory (possibly itself) on the search-boundary list without a subrepo
marker, and whose depth is below the 1000-step budget, the locator returns
not-found without raising the bound-exceeded error. -/
theorem c3_amended (fs : FS) (P q : FPath)
    (hnr : ∀ s ∈ P.inits, fs.isRepoRoot s = false)
    (hq : q ∈ P.inits) (hbnd : q ∈ fs.pypath) (hnm : fs.hasMarker q = false)
    (hlen : P.length < 1000) :
    (_get_git_repo fs P).1 = .notFound := by
  have hpre : q <+: P := (List.mem_inits q P).mp hq
  exact locateLoop_notFound_of_boundary fs q hbnd hnm 1000 P false hnr hpre (by omega)

/-- A home directory on `sys.path`, no repository anywhere. -/
def fs3w : FS := ⟨fun _ => false, fun _ => false, [["home"]]⟩

/-- C3 witness: locating `/home/data/f.py` with `/home` on the search path
stops there and reports not-found. -/
theorem c3_amended_witness : (_get_git_repo fs3w ["home", "data", "f.py"]).1 = .notFound :=
  c3_amended fs3w ["home", "data", "f.py"] ["home"]
    (by decide) (by decide) (by decide) (by decide) (by decide)

/-! ### Claim C4: paths inside a repository -/

/-- An environment where the repository `/repo` contains a virtual
environment `/repo/venv` that is on `sys.path`, with a module file inside
the virtualenv. -/
def fs4c : FS := ⟨fun p => p == ["repo"], fun _ => false, [["repo", "venv"]]⟩

/-- C4 counterexample: `/repo/venv/numpy.py` lies inside the repository
rooted at `/repo` and inside no marked sub-repository (there is no `.gitrepo`
marker anywhere), yet the locator stops at the boundary `/repo/venv` and
returns not-found instead of the handle rooted at `/repo`. -/
theorem c4_counterexample :
    fs4c.isRepoRoot ["repo"] = true ∧
    (["repo"] : FPath) <+: ["repo", "venv", "numpy.py"] ∧
    fs4c.hasMarker = (fun _ => false) ∧
    (_get_git_repo fs4c ["repo", "venv", "numpy.py"]).1 = .notFound ∧
    (_get_git_repo fs4c ["repo", "venv", "numpy.py"]).1 ≠ .found ["repo"] := by
  refine ⟨by decide, by decide, rfl, by decide, by decide⟩

/-- With no repository root, no boundary stop, and enough fuel strictly
below the current directory's distance to `R`, the walk climbs to `R` and
returns its handle. -/
theorem locateLoop_found_of_clear (fs : FS) (R : FPath) (hroot : fs.isRepoRoot R = true) :
    ∀ (n : Nat) (p : FPath),
      R <+: p →
      (∀ s ∈ p.inits, R.length < s.length → fs.isRepoRoot s = false ∧ s ∉ fs.pypath) →
      p.length - R.length < n →
      (locateLoop fs n p false).1 = .found R := by
  intro n
  induction n with
  | zero =>
    intro p _ _ hlen
    omega
  | succ k ih =>
    intro p hR hmid hlen
    by_cases hpR : p = R
    · subst hpR
      simp [locateLoop, hroot]
    · have hne : R ≠ p := fun h => hpR h.symm
      have hql : R.length < p.length := length_lt_of_prefix_ne hR hne
      have hs := hmid p (by rw [List.mem_inits]) hql
      have hb : decide (p ∈ fs.pypath) = false := by simp [hs.2]
      simp only [locateLoop]
      rw [if_neg (by simp [hs.1]), if_neg (by simp [hb])]
      simp only [hb, Bool.or_false]
      exact ih p.dropLast (prefix_dropLast_of_ne hR hne)
        (fun s hsi hl => hmid s (mem_inits_dropLast hsi) hl)
        (by simp [List.length_dropLast]; omega)

/-- C4 (amended): for every path `P` and repository root `R` containing it
such that no directory on the walk strictly below `R` is a repository root
or a search-boundary entry, and the walk from `P` up to `R` fits in the
1000-step budget, the locator returns the handle rooted at `R`. -/
theorem c4_amended (fs : FS) (P R : FPath) (hR : R <+: P) (hroot : fs.isRepoRoot R = true)
    (hmid : ∀ s ∈ P.inits, R.length < s.length → fs.isRepoRoot s = false ∧ s ∉ fs.pypath)
    (hlen : P.length - R.length < 1000) :
    (_get_git_repo fs P).1 = .found R :=
  locateLoop_found_of_clear fs R hroot 1000 P hR hmid hlen

/-- A repository `/proj` with a package file `/proj/pkg/mod.py`, and an
unrelated `sys.path` entry. -/
def fs4w : FS := ⟨fun p => p == ["proj"], fun _ => false, [["other"]]⟩

/-- C4 witness: locating `/proj/pkg/mod.py` returns the repository rooted at
`/proj`. -/
theorem c4_amended_witness :
    (_get_git_repo fs4w ["proj", "pkg", "mod.py"]).1 = .found ["proj"] :=
  c4_amended fs4w ["proj", "pkg", "mod.py"] ["proj"]
    (by decide) (by decide) (by decide) (by decide)

/-! ### Python-dict lemmas -/

theorem dictGet?_eq_none {α β : Type} [DecidableEq α] (d : PyDict α β) (k : α) :
    dictGet? d k = none ↔ ∀ kv ∈ d, kv.1 ≠ k := by
  induction d with
  | nil => simp [dictGet?]
  | cons kv rest ih =>
    by_cases h : kv.1 = k
    · simp [dictGet?, h]
    · simp [dictGet?, h, ih]

theorem dictGet?_some_mem {α β : Type} [DecidableEq α] {d : PyDict α β} {k : α} {v : β}
    (h : dictGet? d k = some v) : (k, v) ∈ d := by
  induction d with
  | nil => simp [dictGet?] at h
  | cons kv rest ih =>
    by_cases hk : kv.1 = k
    · rw [dictGet?, if_pos hk] at h
      obtain ⟨a, b⟩ := kv
      obtain rfl : b = v := Option.some.inj h
      obtain rfl : a = k := hk
      exact List.mem_cons_self _ _
    · rw [dictGet?, if_neg hk] at h
      exact List.mem_cons_of_mem _ (ih h)

theorem not_mem_keys_of_get_none {α β : Type} [DecidableEq α] {d : PyDict α β} {k : α}
    (h : dictGet? d k = none) : k ∉ d.map Prod.fst := by
  intro hk
  obtain ⟨kv, hkv, rfl⟩ := List.mem_map.mp hk
  exact ((dictGet?_eq_none d kv.1).mp h kv hkv) rfl

theorem mem_dictInsert {α β : Type} [DecidableEq α] {d : PyDict α β} {k : α} {v : β} {q : α × β}
    (h : q ∈ dictInsert d k v) : q = (k, v) ∨ q ∈ d := by
  induction d with
  | nil =>
    rw [dictInsert] at h
    exact .inl (List.mem_singleton.mp h)
  | cons kv rest ih =>
    rw [dictInsert] at h
    by_cases hk : kv.1 = k
    · rw [if_pos hk] at h
      rcases List.mem_cons.mp h with h1 | h2
      · exact .inl h1
      · exact .inr (List.mem_cons_of_mem _ h2)
    · rw [if_neg hk] at h
      rcases List.mem_cons.mp h with h1 | h2
      · exact .inr (h1 ▸ List.mem_cons_self _ _)
      · rcases ih h2 with h3 | h3
        · exact .inl h3
        · exact .inr (List.mem_cons_of_mem _ h3)

theorem mem_dictInsert_strong {α β : Type} [DecidableEq α] {d : PyDict α β}
    (hnd : (d.map Prod.fst).Nodup) {k : α} {v : β} {q : α × β}
    (h : q ∈ dictInsert d k v) : q = (k, v) ∨ (q ∈ d ∧ q.1 ≠ k) := by
  induction d with
  | nil =>
    rw [dictInsert] at h
    exact .inl (List.mem_singleton.mp h)
  | cons kv rest ih =>
    simp only [List.map_cons, List.nodup_cons] at hnd
    rw [dictInsert] at h
    by_cases hk : kv.1 = k
    · rw [if_pos hk] at h
      rcases List.mem_cons.mp h with h1 | h2
      · exact .inl h1
      · right
        refine ⟨List.mem_cons_of_mem _ h2, fun he => ?_⟩
        apply hnd.1
        rw [hk, ← he]
        exact List.mem_map_of_mem _ h2
    · rw [if_neg hk] at h
      rcases List.mem_cons.mp h with h1 | h2
      · right
        constructor
        · exact h1 ▸ List.mem_cons_self _ _
        · rw [h1]
          exact hk
      · rcases ih hnd.2 h2 with h3 | ⟨h4, h5⟩
        · exact .inl h3
        · exact .inr ⟨List.mem_cons_of_mem _ h4, h5⟩

theorem mem_dictInsert_of_ne {α β : Type} [DecidableEq α] {d : PyDict α β} {k : α} {v : β}
    {q : α × β} (h : q ∈ d) (hne : q.1 ≠ k) : q ∈ dictInsert d k v := by
  induction d with
  | nil => cases h
  | cons kv rest ih =>
    rw [dictInsert]
    rcases List.mem_cons.mp h with h1 | h2
    · by_cases hk : kv.1 = k
      · exact absurd (h1 ▸ hk : q.1 = k) hne
      · rw [if_neg hk]
        exact h1 ▸ List.mem_cons_self _ _
    · by_cases hk : kv.1 = k
      · rw [if_pos hk]
        exact List.mem_cons_of_mem _ h2
      · rw [if_neg hk]
        exact List.mem_cons_of_mem _ (ih h2)

theorem self_mem_dictInsert {α β : Type} [DecidableEq α] (d : PyDict α β) (k : α) (v : β) :
    (k, v) ∈ dictInsert d k v := by
  induction d with
  | nil => exact List.mem_singleton.mpr rfl
  | cons kv rest ih =>
    rw [dictInsert]
    by_cases hk : kv.1 = k
    · rw [if_pos hk]
      exact List.mem_cons_self _ _
    · rw [if_neg hk]
      exact List.mem_cons_of_mem _ ih

theorem keys_dictInsert_of_get {α β : Type} [DecidableEq α] {d : PyDict α β} {k : α} {w : β}
    (v : β) (h : dictGet? d k = some w) :
    (dictInsert d k v).map Prod.fst = d.map Prod.fst := by
  induction d with
  | nil => simp [dictGet?] at h
  | cons kv rest ih =>
    rw [dictInsert]
    by_cases hk : kv.1 = k
    · rw [if_pos hk]
      simp [hk]
    · rw [dictGet?, if_neg hk] at h
      rw [if_neg hk]
      simp [ih h]

theorem keys_dictInsert_of_none {α β : Type} [DecidableEq α] {d : PyDict α β} {k : α} (v : β)
    (h : dictGet? d k = none) :
    (dictInsert d k v).map Prod.fst = d.map Prod.fst ++ [k] := by
  induction d with
  | nil => simp [dictInsert]
  | cons kv rest ih =>
    rw [dictGet?] at h
    by_cases hk : kv.1 = k
    · rw [if_pos hk] at h
      simp at h
    · rw [if_neg hk] at h
      rw [dictInsert, if_neg hk]
      simp [ih h]

theorem dictInsert_keys_nodup {α β : Type} [DecidableEq α] {d : PyDict α β}
    (h : (d.map Prod.fst).Nodup) (k : α) (v : β) :
    ((dictInsert d k v).map Prod.fst).Nodup := by
  cases hg : dictGet? d k with
  | some w => rw [keys_dictInsert_of_get _ hg]; exact h
  | none =>
    rw [keys_dictInsert_of_none _ hg]
    simp [List.nodup_append, h, not_mem_keys_of_get_none hg]

theorem dictGet?_of_mem_nodup {α β : Type} [DecidableEq α] {d : PyDict α β}
    (hnd : (d.map Prod.fst).Nodup) {kv : α × β} (h : kv ∈ d) : dictGet? d kv.1 = some kv.2 := by
  induction d with
  | nil => cases h
  | cons kv0 rest ih =>
    simp only [List.map_cons, List.nodup_cons] at hnd
    rcases List.mem_cons.mp h with h1 | h2
    · subst h1
      rw [dictGet?, if_pos rfl]
    · rw [dictGet?]
      by_cases hk : kv0.1 = kv.1
      · exfalso
        apply hnd.1
        rw [hk]
        exact List.mem_map_of_mem _ h2
      · rw [if_neg hk]
        exact ih hnd.2 h2

theorem nodup_key_unique {α β : Type} [DecidableEq α] {d : List (α × β)}
    (hnd : (d.map Prod.fst).Nodup) {kv1 kv2 : α × β} (h1 : kv1 ∈ d) (h2 : kv2 ∈ d)
    (hk : kv1.1 = kv2.1) : kv1 = kv2 := by
  have g1 := dictGet?_of_mem_nodup hnd h1
  have g2 := dictGet?_of_mem_nodup hnd h2
  rw [hk, g2] at g1
  obtain ⟨a, b⟩ := kv1
  obtain ⟨c, e⟩ := kv2
  simp only at hk g1
  rw [hk, Option.some.inj g1]

theorem shortestFirst_append_single {l : List String} {b : String}
    (h : shortestFirst l = some b) (nm : String) :
    shortestFirst (l ++ [nm]) = some (if b.length > nm.length then nm else b) := by
  cases l with
  | nil => simp [shortestFirst] at h
  | cons x xs =>
    rw [shortestFirst] at h
    obtain rfl := Option.some.inj h
    rw [List.cons_append, shortestFirst, List.foldl_append]
    simp

theorem shortestFirst_single (nm : String) : shortestFirst [nm] = some nm := rfl

theorem namesResolvingTo_append (fs : FS) (l1 l2 : List (String × Option FPath)) (r : FPath) :
    namesResolvingTo fs (l1 ++ l2) r = namesResolvingTo fs l1 r ++ namesResolvingTo fs l2 r := by
  simp [namesResolvingTo, List.filterMap_append]

theorem namesResolvingTo_single_none (fs : FS) (nm : String) (r : FPath) :
    namesResolvingTo fs [(nm, none)] r = [] := rfl

theorem namesResolvingTo_single_some (fs : FS) (nm : String) (f : FPath) (r : FPath) :
    namesResolvingTo fs [(nm, some f)] r =
      if (_get_git_repo fs f).1 = LocateResult.found r then [nm] else [] := by
  rw [namesResolvingTo]
  by_cases h : (_get_git_repo fs f).1 = LocateResult.found r
  · rw [if_pos h]
    simp [List.filterMap_cons, h]
  · rw [if_neg h]
    simp [List.filterMap_cons, h]

/-- Invariant carried through the scan loop. -/
def c5Inv (fs : FS) (processed : List (String × Option FPath))
    (repos : PyDict FPath RepoEntry) : Prop :=
  (repos.map Prod.fst).Nodup ∧
  (∀ kv ∈ repos, kv.2.repo = kv.1 ∧
    shortestFirst (namesResolvingTo fs processed kv.1) = some kv.2.name) ∧
  (∀ r : FPath, dictGet? repos r = none → namesResolvingTo fs processed r = [])

theorem c5Inv_step (fs : FS) (processed : List (String × Option FPath))
    (repos : PyDict FPath RepoEntry) (m : String × Option FPath)
    (h : c5Inv fs processed repos) : c5Inv fs (processed ++ [m]) (stepRepos fs repos m) := by
  obtain ⟨hnd, hent, hcomp⟩ := h
  obtain ⟨nm, f?⟩ := m
  cases f? with
  | none =>
    refine ⟨hnd, ?_, ?_⟩
    · intro kv hkv
      rw [namesResolvingTo_append, namesResolvingTo_single_none, List.append_nil]
      exact hent kv hkv
    · intro r hr
      rw [namesResolvingTo_append, namesResolvingTo_single_none, List.append_nil]
      exact hcomp r hr
  | some f =>
    cases hloc : (_get_git_repo fs f).1 with
    | notFound =>
      have hA : ∀ r, namesResolvingTo fs (processed ++ [(nm, some f)]) r =
          namesResolvingTo fs processed r := by
        intro r
        rw [namesResolvingTo_append, namesResolvingTo_single_some, hloc, if_neg (by simp),
          List.append_nil]
      simp only [stepRepos, hloc]
      exact ⟨hnd, fun kv hkv => hA kv.1 ▸ hent kv hkv, fun r hr => hA r ▸ hcomp r hr⟩
    | boundExceeded =>
      have hA : ∀ r, namesResolvingTo fs (processed ++ [(nm, some f)]) r =
          namesResolvingTo fs processed r := by
        intro r
        rw [namesResolvingTo_append, namesResolvingTo_single_some, hloc, if_neg (by simp),
          List.append_nil]
      simp only [stepRepos, hloc]
      exact ⟨hnd, fun kv hkv => hA kv.1 ▸ hent kv hkv, fun r hr => hA r ▸ hcomp r hr⟩
    | found root =>
      have hA : ∀ r, namesResolvingTo fs (processed ++ [(nm, some f)]) r =
          namesResolvingTo fs processed r ++ (if root = r then [nm] else []) := by
        intro r
        rw [namesResolvingTo_append, namesResolvingTo_single_some, hloc]
        by_cases hr : root = r
        · rw [if_pos (by rw [hr]), if_pos hr]
        · rw [if_neg (by simp [hr]), if_neg hr]
      have hA_ne : ∀ r, root ≠ r →
          namesResolvingTo fs (processed ++ [(nm, some f)]) r =
            namesResolvingTo fs processed r := by
        intro r hr
        rw [hA r, if_neg hr, List.append_nil]
      have hA_root : namesResolvingTo fs (processed ++ [(nm, some f)]) root =
          namesResolvingTo fs processed root ++ [nm] := by
        rw [hA root, if_pos rfl]
      cases hget : dictGet? repos root with
      | some prev =>
        have hmem : (root, prev) ∈ repos := dictGet?_some_mem hget
        have hprev := hent (root, prev) hmem
        simp only [stepRepos, hloc, hget]
        by_cases hlt : prev.name.length > nm.length
        · rw [if_pos hlt]
          refine ⟨keys_dictInsert_of_get _ hget ▸ hnd, ?_, ?_⟩
          · intro kv hkv
            rcases mem_dictInsert_strong hnd hkv with h1 | ⟨h2, h3⟩
            · subst h1
              refine ⟨hprev.1, ?_⟩
              rw [hA_root, shortestFirst_append_single hprev.2 nm, if_pos hlt]
            · rw [hA_ne kv.1 (fun he => h3 he.symm)]
              exact hent kv h2
          · intro r hr
            have hroot_ne : root ≠ r := by
              intro he
              exact (dictGet?_eq_none _ _).mp hr _ (self_mem_dictInsert repos root _) he
            rw [hA_ne r hroot_ne]
            apply hcomp
            rw [dictGet?_eq_none]
            intro kv hkv he
            exact (dictGet?_eq_none _ _).mp hr kv
              (mem_dictInsert_of_ne hkv (by rw [he]; exact fun h => hroot_ne h.symm)) he
        · rw [if_neg hlt]
          refine ⟨hnd, ?_, ?_⟩
          · intro kv hkv
            by_cases hkr : kv.1 = root
            · have : kv.2 = prev := by
                have g := dictGet?_of_mem_nodup hnd hkv
                rw [hkr, hget] at g
                exact (Option.some.inj g).symm
              refine ⟨this ▸ hkr ▸ hprev.1, ?_⟩
              rw [hkr, hA_root, shortestFirst_append_single hprev.2 nm, if_neg hlt, this]
            · rw [hA_ne kv.1 (fun he => hkr he.symm)]
              exact hent kv hkv
          · intro r hr
            have hroot_ne : root ≠ r := by
              intro he
              rw [← he, hget] at hr
              cases hr
            rw [hA_ne r hroot_ne]
            exact hcomp r hr
      | none =>
        simp only [stepRepos, hloc, hget]
        refine ⟨?_, ?_, ?_⟩
        · rw [keys_dictInsert_of_none _ hget]
          simp [List.nodup_append, hnd, not_mem_keys_of_get_none hget]
        · intro kv hkv
          rcases mem_dictInsert_strong hnd hkv with h1 | ⟨h2, h3⟩
          · subst h1
            refine ⟨rfl, ?_⟩
            rw [hA_root, hcomp root hget]
            rfl
          · rw [hA_ne kv.1 (fun he => h3 he.symm)]
            exact hent kv h2
        · intro r hr
          have hroot_ne : root ≠ r := by
            intro he
            exact (dictGet?_eq_none _ _).mp hr _ (self_mem_dictInsert repos root _) he
          rw [hA_ne r hroot_ne]
          apply hcomp
          rw [dictGet?_eq_none]
          intro kv hkv he
          exact (dictGet?_eq_none _ _).mp hr kv
            (mem_dictInsert_of_ne hkv (by rw [he]; exact fun h => hroot_ne h.symm)) he

theorem scanAux_cons_ok (fs : FS) (m : String × Option FPath)
    (rest : List (String × Option FPath)) (repos out : PyDict FPath RepoEntry)
    (h : scanAux fs (m :: rest) repos = .ok out) :
    scanAux fs rest (stepRepos fs repos m) = .ok out := by
  obtain ⟨nm, f?⟩ := m
  cases f? with
  | none =>
    rw [scanAux] at h
    simpa [stepRepos] using h
  | some f =>
    cases hloc : (_get_git_repo fs f).1 with
    | boundExceeded =>
      rw [scanAux] at h
      simp only [hloc] at h
      cases h
    | notFound =>
      rw [scanAux] at h
      simp only [hloc] at h
      simpa [stepRepos, hloc] using h
    | found root =>
      rw [scanAux] at h
      simp only [hloc] at h
      simpa [stepRepos, hloc] using h

theorem scanAux_ok_inv (fs : FS) :
    ∀ (ms : List (String × Option FPath)) (processed : List (String × Option FPath))
      (repos out : PyDict FPath RepoEntry),
      c5Inv fs processed repos → scanAux fs ms repos = .ok out →
      c5Inv fs (processed ++ ms) out := by
  intro ms
  induction ms with
  | nil =>
    intro processed repos out hinv hok
    rw [scanAux] at hok
    obtain rfl := Except.ok.inj hok
    simpa using hinv
  | cons m rest ih =>
    intro processed repos out hinv hok
    have hok' := scanAux_cons_ok fs m rest repos out hok
    have hstep := c5Inv_step fs processed repos m hinv
    have := ih (processed ++ [m]) _ out hstep hok'
    simpa [List.append_assoc] using this

theorem c5Inv_base (fs : FS) : c5Inv fs [] [] := by
  refine ⟨List.nodup_nil, ?_, ?_⟩
  · intro kv hkv
    cases hkv
  · intro r _
    rfl

theorem rekey_keys_nodup :
    ∀ (d : PyDict FPath RepoEntry) (acc : PyDict String FPath),
      (acc.map Prod.fst).Nodup →
      ((d.foldl (fun a kv => dictInsert a kv.2.name kv.2.repo) acc).map Prod.fst).Nodup := by
  intro d
  induction d with
  | nil => intro acc h; exact h
  | cons kv rest ih =>
    intro acc h
    rw [List.foldl_cons]
    exact ih _ (dictInsert_keys_nodup h _ _)

theorem rekey_mem_source :
    ∀ (d : PyDict FPath RepoEntry) (acc : PyDict String FPath) (p : String × FPath),
      p ∈ d.foldl (fun a kv => dictInsert a kv.2.name kv.2.repo) acc →
      p ∈ acc ∨ ∃ kv ∈ d, p = (kv.2.name, kv.2.repo) := by
  intro d
  induction d with
  | nil => intro acc p h; exact .inl h
  | cons kv rest ih =>
    intro acc p h
    rw [List.foldl_cons] at h
    rcases ih _ p h with h1 | ⟨kv', h2, h3⟩
    · rcases mem_dictInsert h1 with h4 | h5
      · exact .inr ⟨kv, List.mem_cons_self _ _, h4⟩
      · exact .inl h5
    · exact .inr ⟨kv', List.mem_cons_of_mem _ h2, h3⟩

/-- Everything `list_imported_repos` guarantees about a successful scan: the
final names are unique, the repository roots are unique, and every entry
carries the shortest (first-seen on ties) module name resolving to its
repository. -/
theorem scan_ok_props (fs : FS) (modules : List (String × Option FPath))
    (out : PyDict String FPath) (h : list_imported_repos fs modules = .ok out) :
    (out.map Prod.fst).Nodup ∧ (out.map Prod.snd).Nodup ∧
    (∀ p ∈ out, shortestFirst (namesResolvingTo fs modules p.2) = some p.1) := by
  unfold list_imported_repos at h
  cases hscan : scanAux fs modules [] with
  | error e =>
    rw [hscan] at h
    simp [Except.map] at h
  | ok reposF =>
    rw [hscan] at h
    simp only [Except.map] at h
    obtain rfl := Except.ok.inj h
    have hinv : c5Inv fs modules reposF := by
      have := scanAux_ok_inv fs modules [] [] reposF (c5Inv_base fs) hscan
      simpa using this
    obtain ⟨hnd, hent, hcomp⟩ := hinv
    have hkeys : ((rekey reposF).map Prod.fst).Nodup :=
      rekey_keys_nodup reposF [] List.nodup_nil
    have hsrc : ∀ p ∈ rekey reposF, ∃ kv ∈ reposF, p = (kv.2.name, kv.2.repo) := by
      intro p hp
      rcases rekey_mem_source reposF [] p hp with h1 | h2
      · cases h1
      · exact h2
    have hval : ∀ p ∈ rekey reposF, shortestFirst (namesResolvingTo fs modules p.2) = some p.1 := by
      intro p hp
      obtain ⟨kv, hkv, rfl⟩ := hsrc p hp
      have he := hent kv hkv
      simp only
      rw [he.1]
      exact he.2
    refine ⟨hkeys, ?_, hval⟩
    have hout_nodup : (rekey reposF).Nodup := List.Nodup.of_map _ hkeys
    apply List.Nodup.map_on _ hout_nodup
    intro x hx y hy hxy
    obtain ⟨kvx, hkvx, hxe⟩ := hsrc x hx
    obtain ⟨kvy, hkvy, hye⟩ := hsrc y hy
    have hex := hent kvx hkvx
    have hey := hent kvy hkvy
    have hkeq : kvx.1 = kvy.1 := by
      rw [← hex.1, ← hey.1]
      rw [hxe, hye] at hxy
      exact hxy
    have : kvx = kvy := nodup_key_unique hnd hkvx hkvy hkeq
    rw [hxe, hye, this]

theorem filter_key_length_le_one {β : Type} {d : List (String × β)}
    (hnd : (d.map Prod.fst).Nodup) (n : String) :
    (d.filter (fun p => p.1 == n)).length ≤ 1 := by
  induction d with
  | nil => simp
  | cons kv rest ih =>
    simp only [List.map_cons, List.nodup_cons] at hnd
    rw [List.filter_cons]
    by_cases hk : kv.1 = n
    · rw [if_pos (by simp [hk])]
      have hempty : rest.filter (fun p => p.1 == n) = [] := by
        rw [List.filter_eq_nil_iff]
        intro p hp
        simp only [beq_iff_eq]
        intro he
        apply hnd.1
        rw [hk, ← he]
        exact List.mem_map_of_mem _ hp
      simp [hempty]
    · rw [if_neg (by simp [hk])]
      exact ih hnd.2

/-! ### Claim C5: deduplication keeps the shortest name per repository -/

/-- C5: in a successful scan, the returned mapping mentions each repository
root at most once, and every entry's key is the shortest module name that
resolved to that entry's repository, with the first-seen name kept on length
ties (`shortestFirst` of the resolution list in scan order). -/
theorem c5_dedup_shortest (fs : FS) (modules : List (String × Option FPath))
    (out : PyDict String FPath) (h : list_imported_repos fs modules = .ok out) :
    (out.map Prod.snd).Nodup ∧
    (∀ p ∈ out, shortestFirst (namesResolvingTo fs modules p.2) = some p.1) :=
  ⟨(scan_ok_props fs modules out h).2.1, (scan_ok_props fs modules out h).2.2⟩

/-- A repository `/r` holding the package `pkg`. -/
def fs5w : FS := ⟨fun p => p == ["r"], fun _ => false, []⟩

/-- Loaded modules `pkg` and `pkg.sub`, both resolving to `/r`. -/
def mods5w : List (String × Option FPath) :=
  [("pkg", some ["r", "pkg", "f.py"]), ("pkg.sub", some ["r", "pkg", "sub.py"])]

/-- C5 witness: with `pkg` and `pkg.sub` imported from the same repository,
the scan returns a single entry keyed `pkg`, and `pkg` is the selected
shortest name for `/r`. -/
theorem c5_witness :
    list_imported_repos fs5w mods5w = .ok [("pkg", ["r"])] ∧
    shortestFirst (namesResolvingTo fs5w mods5w ["r"]) = some "pkg" := by
  have h : list_imported_repos fs5w mods5w = .ok [("pkg", ["r"])] := by decide
  exact ⟨h, (c5_dedup_shortest fs5w mods5w _ h).2 ("pkg", ["r"]) (by simp)⟩

/-! ### Claim C9: name collisions during re-keying drop repositories -/

/-- C9: if two distinct repository roots both end up with the same chosen
name, the final mapping (re-keyed by name, a dict) has at most one entry
under that name and cannot contain both repositories: at least one of the
two is silently absent from the result. -/
theorem c9_name_collision (fs : FS) (modules : List (String × Option FPath))
    (out : PyDict String FPath) (rA rB : FPath) (n : String)
    (h : list_imported_repos fs modules = .ok out)
    (hA : shortestFirst (namesResolvingTo fs modules rA) = some n)
    (hB : shortestFirst (namesResolvingTo fs modules rB) = some n)
    (hne : rA ≠ rB) :
    (out.filter (fun p => p.1 == n)).length ≤ 1 ∧
    ¬(rA ∈ out.map Prod.snd ∧ rB ∈ out.map Prod.snd) := by
  obtain ⟨hkeys, hsnd, hval⟩ := scan_ok_props fs modules out h
  constructor
  · exact filter_key_length_le_one hkeys n
  · rintro ⟨hA', hB'⟩
    obtain ⟨pA, hpA, hpA2⟩ := List.mem_map.mp hA'
    obtain ⟨pB, hpB, hpB2⟩ := List.mem_map.mp hB'
    have h1 := hval pA hpA
    rw [hpA2, hA] at h1
    have h2 := hval pB hpB
    rw [hpB2, hB] at h2
    have hkeq : pA.1 = pB.1 := by
      rw [← Option.some.inj h1, ← Option.some.inj h2]
    have : pA = pB := nodup_key_unique hkeys hpA hpB hkeq
    apply hne
    rw [← hpA2, ← hpB2, this]

/-- Two separate repositories `/ra` and `/rb`. -/
def fs9w : FS := ⟨fun p => p == ["ra"] || p == ["rb"], fun _ => false, []⟩

/-- A module snapshot in which the name `x` resolves once to `/ra` and once
to `/rb`. -/
def mods9w : List (String × Option FPath) :=
  [("x", some ["ra", "f.py"]), ("x", some ["rb", "g.py"])]

/-- C9 witness: scanning `mods9w` keeps a single `x` entry and `/ra` is
silently dropped from the result. -/
theorem c9_witness :
    list_imported_repos fs9w mods9w = .ok [("x", ["rb"])] ∧
    (([("x", ["rb"])] : PyDict String FPath).filter (fun p => p.1 == "x")).length ≤ 1 ∧
    ¬((["ra"] : FPath) ∈ ([("x", ["rb"])] : PyDict String FPath).map Prod.snd ∧
      (["rb"] : FPath) ∈ ([("x", ["rb"])] : PyDict String FPath).map Prod.snd) := by
  have h : list_imported_repos fs9w mods9w = .ok [("x", ["rb"])] := by decide
  exact ⟨h, c9_name_collision fs9w mods9w _ ["ra"] ["rb"] "x" h (by decide) (by decide) (by decide)⟩
